import Mathlib

/-!
Verification of the semantic-grep core (modules/similarity, modules/model,
modules/processor and their earlier in-repo variants) against its
natural-language specification.

Shallow embedding conventions:

* Go float64/float32 values are modelled by the type `F` below: either NaN,
  a signed infinity, or a finite value carried as an exact rational.  Every
  rounding of an exact finite result is delegated to an abstract rounding
  environment `FloatOps`; the only facts assumed about it (`FloatOps.Faithful`)
  are identities that IEEE-754 guarantees exactly (rounding of 0 is 0 and the
  square root of 0 is 0).  Signed zeros are collapsed to `F.fin 0`; no theorem
  below depends on the sign of a zero.
* Go maps from strings are modelled as association lists with first-match
  lookup; insertions happen only after a failed lookup, which matches the
  single-binding semantics of a Go map for the access patterns of this code.
* Byte streams are modelled as `List Nat` (one entry per byte).
-/

/-- Model of a Go floating point value: NaN, a signed infinity, or a finite
value represented exactly. -/
inductive F where
  | nan : F
  | inf (neg : Bool) : F
  | fin (q : ℚ) : F
deriving DecidableEq, Repr

/-- Rounding environment: `rnd32` rounds the exact value of a float32
operation, `rnd64` rounds the exact value of a float64 operation, `sqrtF` is
`math.Sqrt`. -/
structure FloatOps where
  rnd32 : ℚ → F
  rnd64 : ℚ → F
  sqrtF : F → F

/-- Facts about the rounding environment that IEEE-754 guarantees exactly:
an exact zero result is returned as zero, and the square root of zero is
zero. -/
def FloatOps.Faithful (ops : FloatOps) : Prop :=
  ops.rnd32 0 = F.fin 0 ∧ ops.rnd64 0 = F.fin 0 ∧ ops.sqrtF (F.fin 0) = F.fin 0

/-- Floating point multiplication over `F`, parameterised by the rounding
function for the precision at which it is performed. -/
def mulF (rnd : ℚ → F) : F → F → F
  | F.nan, _ => F.nan
  | _, F.nan => F.nan
  | F.inf s, F.inf t => F.inf (xor s t)
  | F.inf s, F.fin q => if q = 0 then F.nan else F.inf (xor s (decide (q < 0)))
  | F.fin q, F.inf t => if q = 0 then F.nan else F.inf (xor t (decide (q < 0)))
  | F.fin a, F.fin b => rnd (a * b)

/-- Floating point addition over `F`. -/
def addF (rnd : ℚ → F) : F → F → F
  | F.nan, _ => F.nan
  | _, F.nan => F.nan
  | F.inf s, F.inf t => if s = t then F.inf s else F.nan
  | F.inf s, F.fin _ => F.inf s
  | F.fin _, F.inf t => F.inf t
  | F.fin a, F.fin b => rnd (a + b)

/-- Floating point division over `F`.  `0 / 0` is NaN, a nonzero finite value
divided by zero is a signed infinity, a finite value divided by an infinity is
zero. -/
def divF (rnd : ℚ → F) : F → F → F
  | F.nan, _ => F.nan
  | _, F.nan => F.nan
  | F.inf _, F.inf _ => F.nan
  | F.inf s, F.fin q => F.inf (xor s (decide (q < 0)))
  | F.fin _, F.inf _ => F.fin 0
  | F.fin a, F.fin b =>
      if b = 0 then (if a = 0 then F.nan else F.inf (decide (a < 0)))
      else rnd (a / b)

/-- Go `>` on floats: any comparison involving NaN is false. -/
def gtF : F → F → Bool
  | F.nan, _ => false
  | _, F.nan => false
  | F.inf s, F.inf t => !s && t
  | F.inf s, F.fin _ => !s
  | F.fin _, F.inf t => t
  | F.fin a, F.fin b => decide (b < a)

/-- First-match lookup in an association list, modelling a Go map read. -/
def lookupA {α : Type} : List (String × α) → String → Option α
  | [], _ => none
  | (k, v) :: rest, key => if k = key then some v else lookupA rest key

/-- Concrete rounding environment used to evaluate theorems on concrete
inputs: finite arithmetic is exact and the square root is exact on perfect
squares (both behaviours agree with IEEE-754 on the inputs exercised by the
witnesses below, where every intermediate value is exactly representable). -/
def exactOps : FloatOps where
  rnd32 := F.fin
  rnd64 := F.fin
  sqrtF := fun x =>
    match x with
    | F.fin q => if Rat.sqrt q * Rat.sqrt q = q then F.fin (Rat.sqrt q) else F.nan
    | _ => F.nan

namespace similarity

/-- Core of `calculateSimilarity` (and of the identical
`calculateSimilarity32bit`): the accumulation loop.  Components of the
accumulator are (dotProduct, norm1, norm2), accumulated in float64; each
product is formed in float32 and widened exactly, as in the source. -/
def simAccum (ops : FloatOps) (ps : List (F × F)) : F × F × F :=
  ps.foldl
    (fun acc p =>
      (addF ops.rnd64 acc.1 (mulF ops.rnd32 p.1 p.2),
       addF ops.rnd64 acc.2.1 (mulF ops.rnd32 p.1 p.1),
       addF ops.rnd64 acc.2.2 (mulF ops.rnd32 p.2 p.2)))
    (F.fin 0, F.fin 0, F.fin 0)

/-- Embedding of `calculateSimilarity` from modules/similarity/similarity.go:
cosine similarity of two float32 vectors with float64 accumulation.  The Go
loop indexes both slices by the range of `vec1`; the call sites of this
repository always pass vectors of one model and hence of equal length, which
`List.zip` reproduces. -/
def calculateSimilarity (ops : FloatOps) (vec1 vec2 : List F) : F :=
  let s := simAccum ops (vec1.zip vec2)
  divF ops.rnd64 s.1 (mulF ops.rnd64 (ops.sqrtF s.2.1) (ops.sqrtF s.2.2))

/-- The 32-bit kernel of the current similarity module; its source text is
identical to `calculateSimilarity`. -/
def calculateSimilarity32bit (ops : FloatOps) (vec1 vec2 : List F) : F :=
  calculateSimilarity ops vec1 vec2

/-- Wrap an integer into the two's-complement range of Go `int32`. -/
def wrap32 (z : ℤ) : ℤ := (z + 2 ^ 31) % 2 ^ 32 - 2 ^ 31

/-- Embedding of `calculateSimilarity8bit`: integer accumulation of the dot
product and the squared norms in int32 arithmetic, converted to float only
for the final division. -/
def calculateSimilarity8bit (ops : FloatOps) (vec1 vec2 : List ℤ) : F :=
  let s := (vec1.zip vec2).foldl
    (fun acc p =>
      (wrap32 (acc.1 + wrap32 (p.1 * p.2)),
       wrap32 (acc.2.1 + wrap32 (p.1 * p.1)),
       wrap32 (acc.2.2 + wrap32 (p.2 * p.2))))
    ((0 : ℤ), (0 : ℤ), (0 : ℤ))
  divF ops.rnd64 (F.fin s.1)
    (mulF ops.rnd64 (ops.sqrtF (F.fin s.2.1)) (ops.sqrtF (F.fin s.2.2)))

/-- Embedding of the legacy `SimilarityCache` struct: a map from the
concatenated key to the cached score. -/
structure SimilarityCache where
  cache : List (String × F)

/-- Embedding of the legacy `SimilarityCache.MemoizedCalculateSimilarity`:
the cache key is `queryToken + "|" + token`; keys longer than 30 bytes are
not cached.  The returned Bool is instrumentation recording whether the
underlying `calculateSimilarity` ran on this call; the other two components
are the source semantics. -/
def SimilarityCache.memoizedCalculateSimilarity (ops : FloatOps)
    (sc : SimilarityCache) (queryToken token : String)
    (queryVector tokenVector : List F) : F × SimilarityCache × Bool :=
  let key := queryToken ++ "|" ++ token
  if 30 < key.utf8ByteSize then
    (calculateSimilarity ops queryVector tokenVector, sc, true)
  else
    match lookupA sc.cache key with
    | some result => (result, sc, false)
    | none =>
        let result := calculateSimilarity ops queryVector tokenVector
        (result, ⟨(key, result) :: sc.cache⟩, true)

/-- A Go `interface{}` value holding one of the two vector representations
this program constructs. -/
inductive VecE where
  | f32 (v : List F) : VecE
  | i8 (v : List ℤ) : VecE
deriving DecidableEq, Repr

/-- A Go runtime panic raised by the similarity module. -/
inductive GoPanic where
  | typeAssertionFailed : GoPanic
deriving DecidableEq, Repr

/-- Embedding of the current `Cache` struct. -/
structure Cache where
  cache : List (String × F)

/-- Embedding of the current `Cache.MemoizedCalculateSimilarity`: the cache
key is the candidate token alone; on a miss the code switches on the dynamic
type of `queryVector` and applies an unchecked type assertion to
`tokenVector`, which panics when the representations differ.  (The source
also panics on a vector type other than the two above; `VecE` enumerates the
types the program constructs, so that branch is unreachable here.)  The Bool
is instrumentation recording whether an underlying kernel ran. -/
def Cache.memoizedCalculateSimilarity (ops : FloatOps) (c : Cache)
    (queryToken token : String) (queryVector tokenVector : VecE) :
    Except GoPanic (F × Cache × Bool) :=
  let key := token
  match lookupA c.cache key with
  | some cachedValue => Except.ok (cachedValue, c, false)
  | none =>
      match queryVector, tokenVector with
      | VecE.f32 qv, VecE.f32 tv =>
          let s := calculateSimilarity32bit ops qv tv
          Except.ok (s, ⟨(key, s) :: c.cache⟩, true)
      | VecE.f32 _, VecE.i8 _ => Except.error GoPanic.typeAssertionFailed
      | VecE.i8 qv, VecE.i8 tv =>
          let s := calculateSimilarity8bit ops qv tv
          Except.ok (s, ⟨(key, s) :: c.cache⟩, true)
      | VecE.i8 _, VecE.f32 _ => Except.error GoPanic.typeAssertionFailed

end similarity

namespace model

/-- Embedding of `strings.HasSuffix` on the char level (for the ASCII
suffixes tested by `LoadVectorModel`, char-level and byte-level suffix
agree). -/
def hasSuffixGo (s pat : String) : Bool :=
  pat.data.isSuffixOf s.data

/-- The two on-disk formats of the vector store. -/
inductive ModelKind where
  | vec32 : ModelKind
  | vec8 : ModelKind
deriving DecidableEq, Repr

/-- Embedding of the dispatch in `LoadVectorModel`: the `.bin` test runs
first, then `.8int.bin`, then the unsupported-format error (`none`). -/
def selectVectorModel (filename : String) : Option ModelKind :=
  if hasSuffixGo filename ".bin" then some ModelKind.vec32
  else if hasSuffixGo filename ".8int.bin" then some ModelKind.vec8
  else none

/-- Bytes treated as ASCII whitespace by the model of `strings.TrimSpace`
(the words of a model file are byte sequences; only the ASCII whitespace
range is relevant to the loader's behaviour on them). -/
def isSpaceByte (b : ℕ) : Bool :=
  b = 9 || b = 10 || b = 11 || b = 12 || b = 13 || b = 32

/-- Model of `strings.TrimSpace` on a byte sequence. -/
def trimSpaceGo (w : List ℕ) : List ℕ :=
  (w.dropWhile isSpaceByte).reverse.dropWhile isSpaceByte |>.reverse

/-- Model of `bufio.Reader.ReadString(' ')`: the bytes up to and including
the first space; `none` models the error returned when the delimiter is not
found before EOF. -/
def readStringSpace : List ℕ → Option (List ℕ × List ℕ)
  | [] => none
  | b :: rest =>
      if b = 32 then some ([32], rest)
      else
        match readStringSpace rest with
        | some (w, rest2) => some (b :: w, rest2)
        | none => none

/-- Read `n` raw bytes (the little-endian payload of `n` bytes read by
`binary.Read`); `none` models the read error on a short stream. -/
def readBytes (n : ℕ) (bs : List ℕ) : Option (List ℕ × List ℕ) :=
  if bs.length < n then none else some (bs.take n, bs.drop n)

/-- Read `dim` little-endian float32 values, each kept as its 4 raw bytes
(the loader never interprets the bits). -/
def readFloats : ℕ → List ℕ → Option (List (List ℕ) × List ℕ)
  | 0, bs => some ([], bs)
  | n + 1, bs =>
      match readBytes 4 bs with
      | none => none
      | some (v, rest) =>
          match readFloats n rest with
          | none => none
          | some (vs, rest2) => some (v :: vs, rest2)

/-- Read one Format A record: the word up to and including its space
delimiter (then trimmed), `dim` float32 values, and an optional trailing
newline byte, consumed if present (the `Peek`/`ReadByte` pair of the
source). -/
def readRecord (dim : ℕ) (bs : List ℕ) :
    Option ((List ℕ × List (List ℕ)) × List ℕ) :=
  match readStringSpace bs with
  | none => none
  | some (w, rest) =>
      match readFloats dim rest with
      | none => none
      | some (vs, rest2) =>
          let rest3 := match rest2 with
            | 10 :: tl => tl
            | _ => rest2
          some ((trimSpaceGo w, vs), rest3)

/-- Read `count` Format A records. -/
def readRecords : ℕ → ℕ → List ℕ → Option (List (List ℕ × List (List ℕ)) × List ℕ)
  | 0, _, bs => some ([], bs)
  | n + 1, dim, bs =>
      match readRecord dim bs with
      | none => none
      | some (r, rest) =>
          match readRecords n dim rest with
          | none => none
          | some (rs, rest2) => some (r :: rs, rest2)

/-- Parse an ASCII decimal with optional minus sign; `none` when no digit is
present. -/
def parseDigits : List ℕ → Option (ℕ × List ℕ)
  | b :: rest =>
      if 48 ≤ b ∧ b ≤ 57 then
        match parseDigits rest with
        | some (n, rest2) => some (n * 10 ^ (rest.length - rest2.length) + (b - 48), rest2)
        | none => some (b - 48, rest)
      else none
  | [] => none

/-- Parse a signed ASCII decimal. -/
def parseIntA (bs : List ℕ) : Option (ℤ × List ℕ) :=
  match bs with
  | 45 :: rest =>
      match parseDigits rest with
      | some (n, rest2) => some (-(n : ℤ), rest2)
      | none => none
  | _ =>
      match parseDigits bs with
      | some (n, rest2) => some ((n : ℤ), rest2)
      | none => none

/-- Model of `fmt.Fscanf(reader, "%d %d\n", ...)` for the byte shapes a
model-file header can take: optional spaces, a signed decimal, spaces, a
signed decimal, then a newline. -/
def parseHeaderA (bs : List ℕ) : Option ((ℤ × ℤ) × List ℕ) :=
  let bs1 := bs.dropWhile (fun b => b = 32)
  match parseIntA bs1 with
  | none => none
  | some (v, rest) =>
      let rest1 := rest.dropWhile (fun b => b = 32)
      match parseIntA rest1 with
      | none => none
      | some (d, rest2) =>
          match rest2 with
          | 10 :: tl => some ((v, d), tl)
          | _ => none

/-- Errors of the Format A loader. -/
inductive LoadErr where
  | headerErr : LoadErr
  | invalidHeader : LoadErr
  | recordErr : LoadErr
  | trailingData : LoadErr
deriving DecidableEq, Repr

/-- Embedding of `VecModel32bit.LoadModel` (Format A): parse the header,
reject a non-positive vocabulary size or dimension, read exactly `vocabSize`
records, then require the input to be exhausted. -/
def loadModel32 (bs : List ℕ) : Except LoadErr (List (List ℕ × List (List ℕ)) × ℤ) :=
  match parseHeaderA bs with
  | none => Except.error LoadErr.headerErr
  | some ((vocabSize, vectorSize), rest) =>
      if vocabSize ≤ 0 ∨ vectorSize ≤ 0 then Except.error LoadErr.invalidHeader
      else
        match readRecords vocabSize.toNat vectorSize.toNat rest with
        | none => Except.error LoadErr.recordErr
        | some (recs, rest2) =>
            match rest2 with
            | [] => Except.ok (recs, vectorSize)
            | _ :: _ => Except.error LoadErr.trailingData

end model

/-- A well-formed Format A file: header "2 2\n", then two records, each a
word terminated by a space, two little-endian float32 payloads, and a
trailing newline. -/
def goodFileA : List ℕ :=
  [50, 32, 50, 10] ++
  ([97, 98, 32] ++ [1, 0, 0, 0, 2, 0, 0, 0] ++ [10]) ++
  ([99, 100, 32] ++ [3, 0, 0, 0, 4, 0, 0, 0] ++ [10])

namespace similarity

/-- One similarity probe: the two tokens and the vectors passed for them. -/
structure SCall where
  q : String
  t : String
  qv : List F
  tv : List F
deriving DecidableEq

/-- Run a sequence of probes through the legacy `SimilarityCache`, recording
for each probe the value returned and whether the kernel ran. -/
def runSC (ops : FloatOps) :
    SimilarityCache → List SCall → List (SCall × F × Bool) × SimilarityCache
  | sc, [] => ([], sc)
  | sc, c :: rest =>
      let r := sc.memoizedCalculateSimilarity ops c.q c.t c.qv c.tv
      let rr := runSC ops r.2.1 rest
      ((c, r.1, r.2.2) :: rr.1, rr.2)

/-- One probe through the current interface cache: tokens plus dynamically
typed vectors. -/
structure CCall where
  q : String
  t : String
  qv : VecE
  tv : VecE
deriving DecidableEq

/-- Run a sequence of probes through the current `Cache`; a panic aborts the
whole run, as in Go. -/
def runC (ops : FloatOps) : Cache → List CCall → Except GoPanic (List (CCall × F × Bool) × Cache)
  | c, [] => Except.ok ([], c)
  | c, call :: rest =>
      match c.memoizedCalculateSimilarity ops call.q call.t call.qv call.tv with
      | Except.error p => Except.error p
      | Except.ok (v, c2, comp) =>
          match runC ops c2 rest with
          | Except.error p => Except.error p
          | Except.ok (tr, cf) => Except.ok ((call, v, comp) :: tr, cf)

end similarity

/-- Probe of query "king" (vector [3,4]) against token "man" (vector [5,0]). -/
def callKing : similarity.CCall :=
  ⟨"king", "man", similarity.VecE.f32 [F.fin 3, F.fin 4], similarity.VecE.f32 [F.fin 5, F.fin 0]⟩

/-- Probe of query "queen" (vector [4,3]) against the same token "man". -/
def callQueen : similarity.CCall :=
  ⟨"queen", "man", similarity.VecE.f32 [F.fin 4, F.fin 3], similarity.VecE.f32 [F.fin 5, F.fin 0]⟩

/-- A query token of 30 bytes, driving the concatenated cache key over the
30-byte cap of the legacy cache. -/
def longQuery : String := "aaaaaaaaaaaaaaaaaaaaaaaaaaaaaa"

/-- The long-key probe repeated below. -/
def longCall : similarity.SCall := ⟨longQuery, "b", [F.fin 1], [F.fin 1]⟩

namespace model

/-- Embedding of the current `VectorModel.GetEmbedding` over a loaded store:
token to dynamically typed embedding, with an error for a missing token. -/
def getEmbedding (store : List (String × similarity.VecE)) (token : String) :
    Except Unit similarity.VecE :=
  match lookupA store token with
  | some v => Except.ok v
  | none => Except.error ()

end model

namespace processor

/-- Case normalization applied to the query and to each token
(`strings.ToLower` when ignoreCase is set). -/
def normalize (ignoreCase : Bool) (s : String) : String :=
  if ignoreCase then s.toLower else s

/-- Embedding of `utils.ColorText(text, "red")`. -/
def colorRed (text : String) : String := "\x1B[91m" ++ text ++ "\x1B[0m"

/-- Embedding of the highlighting step
`strings.Replace(line, token, utils.ColorText(token, "red"), -1)`:
every literal occurrence of the token text is replaced. -/
def highlight (line token : String) : String := line.replace token (colorRed token)

/-- Embedding of the per-token test of the single-query processor
(`ProcessLineByLine`, current processor.go): the exact-match fast path runs
first; otherwise, only when the query is in the model, the token embedding is
looked up and the memoized similarity is compared strictly against the
threshold.  The fields `similarityScore0`/`highlightedLine0` are the values
of the mutable per-line variables coming into this token. -/
def tokenTestS (ops : FloatOps) (similarityThreshold : F)
    (queryTokenToCheck : String) (queryInModel : Bool) (queryVector : similarity.VecE)
    (store : List (String × similarity.VecE)) (c : similarity.Cache)
    (ignoreCase : Bool) (line token : String)
    (similarityScore0 : F) (highlightedLine0 : String) :
    Except similarity.GoPanic (Bool × F × String × similarity.Cache) :=
  let tokenToCheck := normalize ignoreCase token
  if tokenToCheck = queryTokenToCheck then
    Except.ok (true, F.fin 1, highlight line token, c)
  else if queryInModel then
    match model.getEmbedding store tokenToCheck with
    | Except.ok tokenVector =>
        match c.memoizedCalculateSimilarity ops queryTokenToCheck tokenToCheck
            queryVector tokenVector with
        | Except.error p => Except.error p
        | Except.ok (s, c2, _) =>
            if gtF s similarityThreshold then
              Except.ok (true, s, highlight line token, c2)
            else
              Except.ok (false, s, highlightedLine0, c2)
    | Except.error _ => Except.ok (false, similarityScore0, highlightedLine0, c)
  else Except.ok (false, similarityScore0, highlightedLine0, c)

/-- Per-line mutable state of the multi-query `ProcessLineByLine`
(matched, highlightedLine, similarityScore, matchSimilarityScore). -/
structure LineSt where
  matched : Bool
  highlightedLine : String
  similarityScore : F
  matchSimilarityScore : F
deriving DecidableEq, Repr

/-- Query preprocessing of the multi-query processor: normalize each query,
look it up, and keep the in-model queries (of either supported vector type)
as the active query set.  Go iterates the resulting map in unspecified
order; this list preserves the given query order, which is exact for the
single-query instances the theorems below use. -/
def prepareQueries (store : List (String × similarity.VecE)) (ignoreCase : Bool) :
    List String → List (String × similarity.VecE) × List (String × Bool)
  | [] => ([], [])
  | q :: rest =>
      let prev := prepareQueries store ignoreCase rest
      let queryTokenToCheck := normalize ignoreCase q
      match model.getEmbedding store queryTokenToCheck with
      | Except.ok qv =>
          match qv with
          | similarity.VecE.f32 _ =>
              ((queryTokenToCheck, qv) :: prev.1, (queryTokenToCheck, true) :: prev.2)
          | similarity.VecE.i8 _ =>
              ((queryTokenToCheck, qv) :: prev.1, (queryTokenToCheck, true) :: prev.2)
      | Except.error _ => (prev.1, (queryTokenToCheck, false) :: prev.2)

/-- Embedding of the inner query loop of the multi-query `ProcessLineByLine`
for one token.  Faithful details: the exact-match and similarity updates
mutate the shared per-line state; the trailing `if matched` break fires even
when `matched` was set by an earlier token, in which case only-matching mode
prints the current token whether or not it matched anything.  The final Bool
records whether the loop broke out. -/
def queryLoop (ops : FloatOps) (similarityThreshold : F)
    (store : List (String × similarity.VecE)) (qin : List (String × Bool))
    (outputOnlyMatching : Bool) (line token tokenToCheck : String) :
    List (String × similarity.VecE) → similarity.Cache → LineSt → List String →
    Except similarity.GoPanic (LineSt × similarity.Cache × List String × Bool)
  | [], c, st, outp => Except.ok (st, c, outp, false)
  | (queryTokenToCheck, queryVector) :: rest, c, st, outp =>
      let check : Except similarity.GoPanic (LineSt × similarity.Cache) :=
        if tokenToCheck = queryTokenToCheck then
          Except.ok ({ matched := true, highlightedLine := highlight line token,
                       similarityScore := F.fin 1, matchSimilarityScore := F.fin 1 }, c)
        else if (lookupA qin queryTokenToCheck).getD false then
          match model.getEmbedding store tokenToCheck with
          | Except.ok tokenVector =>
              match c.memoizedCalculateSimilarity ops queryTokenToCheck tokenToCheck
                  queryVector tokenVector with
              | Except.error p => Except.error p
              | Except.ok (s, c2, _) =>
                  if gtF s similarityThreshold then
                    Except.ok ({ matched := true, highlightedLine := highlight line token,
                                 similarityScore := s, matchSimilarityScore := s }, c2)
                  else
                    Except.ok ({ st with similarityScore := s }, c2)
          | Except.error _ => Except.ok (st, c)
        else Except.ok (st, c)
      match check with
      | Except.error p => Except.error p
      | Except.ok (st1, c1) =>
          if st1.matched then
            if outputOnlyMatching then Except.ok (st1, c1, outp ++ [token], true)
            else Except.ok (st1, c1, outp, true)
          else
            queryLoop ops similarityThreshold store qin outputOnlyMatching
              line token tokenToCheck rest c1 st1 outp

/-- Embedding of the token loop of the multi-query `ProcessLineByLine`: the
break of the query loop only leaves the query loop, so the token loop keeps
running over the remaining tokens of the line even after a match. -/
def tokenLoop (ops : FloatOps) (similarityThreshold : F)
    (store : List (String × similarity.VecE)) (qin : List (String × Bool))
    (qvs : List (String × similarity.VecE)) (outputOnlyMatching ignoreCase : Bool)
    (line : String) :
    List String → similarity.Cache → LineSt → List String →
    Except similarity.GoPanic (LineSt × similarity.Cache × List String)
  | [], c, st, outp => Except.ok (st, c, outp)
  | token :: rest, c, st, outp =>
      let tokenToCheck := normalize ignoreCase token
      match queryLoop ops similarityThreshold store qin outputOnlyMatching
          line token tokenToCheck qvs c st outp with
      | Except.error p => Except.error p
      | Except.ok (st1, c1, outp1, _) =>
          tokenLoop ops similarityThreshold store qin qvs outputOnlyMatching ignoreCase
            line rest c1 st1 outp1

/-- Per-line processing of the multi-query `ProcessLineByLine`: the per-line
state starts from the Go zero values of its variables. -/
def processLine (ops : FloatOps) (similarityThreshold : F)
    (store : List (String × similarity.VecE)) (qin : List (String × Bool))
    (qvs : List (String × similarity.VecE)) (outputOnlyMatching ignoreCase : Bool)
    (line : String) (tokens : List String) (c : similarity.Cache) :
    Except similarity.GoPanic (LineSt × similarity.Cache × List String) :=
  tokenLoop ops similarityThreshold store qin qvs outputOnlyMatching ignoreCase
    line tokens c
    { matched := false, highlightedLine := "", similarityScore := F.fin 0,
      matchSimilarityScore := F.fin 0 } []

end processor

/-- Store holding the vectors of "king" and "queen". -/
def storeKQ : List (String × similarity.VecE) :=
  [("king", similarity.VecE.f32 [F.fin 3, F.fin 4]),
   ("queen", similarity.VecE.f32 [F.fin 4, F.fin 3])]

namespace processor

/-- Scan state of the multi-query `ProcessLineByLine`: the cache, the current
line number, and the two parallel leading-context slices. -/
structure ScanSt where
  cache : similarity.Cache
  lineNumber : ℤ
  contextBuffer : List String
  contextLineNumbers : List ℤ

/-- Embedding of the context-buffer trim: after appending, drop the oldest
entry when the buffer exceeds contextBefore. -/
def trimCtx {α : Type} (contextBefore : ℤ) (xs : List α) : List α :=
  if contextBefore < (xs.length : ℤ) then xs.drop 1 else xs

/-- Embedding of the scan loop of the multi-query `ProcessLineByLine` over a
tokenized line stream.  On a match the context buffers are cleared (in every
output mode) and, in full output mode, up to contextAfter following lines are
consumed from the stream without being scanned; on a non-match the line is
appended to the context buffers exactly when contextBefore is positive and
neither only-matching nor only-lines mode is active.  The returned trace
lists each scanned line with its number and match flag. -/
def scanW (ops : FloatOps) (similarityThreshold : F)
    (store : List (String × similarity.VecE)) (qin : List (String × Bool))
    (qvs : List (String × similarity.VecE)) (contextBefore contextAfter : ℤ)
    (outputOnlyMatching outputOnlyLines ignoreCase : Bool) :
    List (String × List String) → ScanSt →
    Except similarity.GoPanic (ScanSt × List (String × ℤ × Bool))
  | [], s => Except.ok (s, [])
  | (line, tokens) :: rest, s =>
      match processLine ops similarityThreshold store qin qvs outputOnlyMatching
          ignoreCase line tokens s.cache with
      | Except.error p => Except.error p
      | Except.ok (st, c1, _) =>
          if st.matched then
            match scanW ops similarityThreshold store qin qvs contextBefore contextAfter
                outputOnlyMatching outputOnlyLines ignoreCase
                (rest.drop (if outputOnlyMatching || outputOnlyLines then 0
                  else min contextAfter.toNat rest.length))
                { cache := c1,
                  lineNumber := s.lineNumber + 1 +
                    (((if outputOnlyMatching || outputOnlyLines then 0
                      else min contextAfter.toNat rest.length) : ℕ) : ℤ),
                  contextBuffer := [], contextLineNumbers := [] } with
            | Except.error p => Except.error p
            | Except.ok (sf, tr) => Except.ok (sf, (line, s.lineNumber + 1, true) :: tr)
          else
            match scanW ops similarityThreshold store qin qvs contextBefore contextAfter
                outputOnlyMatching outputOnlyLines ignoreCase rest
                (if 0 < contextBefore ∧ outputOnlyMatching = false ∧ outputOnlyLines = false then
                  { cache := c1, lineNumber := s.lineNumber + 1,
                    contextBuffer := trimCtx contextBefore (s.contextBuffer ++ [line]),
                    contextLineNumbers :=
                      trimCtx contextBefore (s.contextLineNumbers ++ [s.lineNumber + 1]) }
                else { s with cache := c1, lineNumber := s.lineNumber + 1 }) with
            | Except.error p => Except.error p
            | Except.ok (sf, tr) => Except.ok (sf, (line, s.lineNumber + 1, false) :: tr)
termination_by lines _ => lines.length
decreasing_by
  · simp only [List.length_cons, List.length_drop]
    omega
  · simp only [List.length_cons]
    omega

end processor

/-- The last `n` entries of a list, in order. -/
def lastN {α : Type} (n : ℕ) (xs : List α) : List α := xs.drop (xs.length - n)

/-- The (line, line number) pairs of the maximal non-matching suffix of a
scan trace, accumulated left to right: a match resets the run. -/
def tailRunAux : List (String × ℤ) → List (String × ℤ × Bool) → List (String × ℤ)
  | acc, [] => acc
  | acc, (line, n, m) :: tr => tailRunAux (if m then [] else acc ++ [(line, n)]) tr

/-- The context ring contents dictated by the spec reading of the scanner
state: in accumulating mode, the last contextBefore entries of the current
non-matching run; empty otherwise. -/
def ctxOf (contextBefore : ℤ) (oM oL : Bool) (acc : List (String × ℤ)) :
    List (String × ℤ) :=
  if 0 < contextBefore ∧ oM = false ∧ oL = false then lastN contextBefore.toNat acc
  else []

/-- Whether the last scanned line of a trace was a match. -/
def endsWithMatch (tr : List (String × ℤ × Bool)) : Bool :=
  match tr.getLast? with
  | some e => e.2.2
  | none => false

namespace model

/-- Embedding of the legacy `Word2VecModel`: token to float32 vector, plus
the vector size from the header. -/
structure Word2VecModel where
  vectors : List (String × List F)
  size : ℕ

/-- Embedding of the legacy `GetVectorEmbedding`: a token absent from the
model yields `make([]float32, model.Size)`, the all-zero vector of length
Size, with no error. -/
def getVectorEmbedding (token : String) (m : Word2VecModel) : List F :=
  match lookupA m.vectors token with
  | some vec => vec
  | none => List.replicate m.size (F.fin 0)

end model

namespace processor

/-- Embedding of the token loop of the legacy `ProcessLineByLine`: every
token (with no exact-match fast path and no in-vocabulary test) is scored
through the memoized similarity against the query vector; the first token
whose score is strictly greater than the threshold is the match. -/
def legacyTokenScan (ops : FloatOps) (m : model.Word2VecModel)
    (queryTokenToCheck : String) (queryVector : List F) (similarityThreshold : F)
    (ignoreCase : Bool) :
    List String → similarity.SimilarityCache →
    Option (String × F) × similarity.SimilarityCache
  | [], sc => (none, sc)
  | token :: rest, sc =>
      let tokenToCheck := normalize ignoreCase token
      let r := sc.memoizedCalculateSimilarity ops queryTokenToCheck tokenToCheck
        queryVector (model.getVectorEmbedding tokenToCheck m)
      if gtF r.1 similarityThreshold then (some (tokenToCheck, r.1), r.2.1)
      else
        legacyTokenScan ops m queryTokenToCheck queryVector similarityThreshold
          ignoreCase rest r.2.1

/-- Embedding of the scan loop of the legacy `ProcessLineByLine` over a
tokenized line stream, returning the (normalized token, score) matches in
order; after a matched line up to contextAfter following lines are consumed
without being scanned, as in the source. -/
def legacyScan (ops : FloatOps) (m : model.Word2VecModel) (queryTokenToCheck : String)
    (queryVector : List F) (similarityThreshold : F) (ignoreCase : Bool)
    (contextAfter : ℤ) :
    List (List String) → similarity.SimilarityCache →
    List (String × F) × similarity.SimilarityCache
  | [], sc => ([], sc)
  | tokens :: rest, sc =>
      match legacyTokenScan ops m queryTokenToCheck queryVector similarityThreshold
          ignoreCase tokens sc with
      | (none, sc1) =>
          legacyScan ops m queryTokenToCheck queryVector similarityThreshold ignoreCase
            contextAfter rest sc1
      | (some (tok, s), sc1) =>
          let r := legacyScan ops m queryTokenToCheck queryVector similarityThreshold
            ignoreCase contextAfter (rest.drop (min contextAfter.toNat rest.length)) sc1
          ((tok, s) :: r.1, r.2)
termination_by lines _ => lines.length
decreasing_by
  · simp only [List.length_cons]
    omega
  · simp only [List.length_cons, List.length_drop]
    omega

end processor

/-- Correctness invariant of the legacy cache during a scan with query
`q`: every binding was produced by the pair key of `q` with some token, and
stores the similarity of the two vectors the model supplies for them. -/
def cacheOK (ops : FloatOps) (m : model.Word2VecModel) (q : String)
    (cache : List (String × F)) : Prop :=
  ∀ p ∈ cache, ∃ t : String, p.1 = q ++ "|" ++ t ∧
    p.2 = similarity.calculateSimilarity ops (model.getVectorEmbedding q m)
      (model.getVectorEmbedding t m)

/-- Single-word model used by the C10 witness. -/
def kingModel : model.Word2VecModel := ⟨[("king", [F.fin 1])], 1⟩

theorem gtF_nan_left (x : F) : gtF F.nan x = false := by cases x <;> rfl

theorem gtF_irrefl (x : F) : gtF x x = false := by
  cases x with
  | nan => rfl
  | inf s => cases s <;> rfl
  | fin q => simp [gtF]

theorem exactOps_faithful : exactOps.Faithful := by
  refine ⟨rfl, rfl, ?_⟩
  simp [exactOps, Rat.sqrt]

theorem binSuffix_of_8intSuffix {s : String} (h : model.hasSuffixGo s ".8int.bin" = true) :
    model.hasSuffixGo s ".bin" = true := by
  have h8 : (".8int.bin".data) <:+ s.data := by
    simpa [model.hasSuffixGo, List.isSuffixOf_iff_suffix] using h
  have hb : (".bin".data) <:+ (".8int.bin".data) := ⟨".8int".data, by decide⟩
  simpa [model.hasSuffixGo, List.isSuffixOf_iff_suffix] using hb.trans h8

/-- C2: refuted in part and established in part by the source dispatch: the
`.bin` suffix test runs first in `LoadVectorModel`, and every `.8int.bin`
name also ends in `.bin`, so a quantized file name selects Format A (the
32-bit loader); the Format B branch is unreachable.  Concretely
`vectors.8int.bin` selects Format A, every name ending in `.8int.bin`
selects Format A, and a name ending in neither suffix is rejected as
unsupported. -/
theorem c2_suffix_dispatch :
    model.selectVectorModel "vectors.8int.bin" = some model.ModelKind.vec32 ∧
    (∀ s : String, model.hasSuffixGo s ".8int.bin" = true →
      model.selectVectorModel s = some model.ModelKind.vec32) ∧
    (∀ s : String, model.hasSuffixGo s ".bin" = false →
      model.selectVectorModel s = none) := by
  refine ⟨by decide, ?_, ?_⟩
  · intro s h
    have hb := binSuffix_of_8intSuffix h
    simp [model.selectVectorModel, hb]
  · intro s h
    have h8 : model.hasSuffixGo s ".8int.bin" = false := by
      by_contra hc
      have := binSuffix_of_8intSuffix (by simpa using hc)
      simp [this] at h
    simp [model.selectVectorModel, h, h8]

/-- C2 witness: the general branches of `c2_suffix_dispatch` applied to
concrete file names. -/
theorem c2_suffix_dispatch_witness :
    model.selectVectorModel "glove.8int.bin" = some model.ModelKind.vec32 ∧
    model.selectVectorModel "glove.txt" = none :=
  ⟨c2_suffix_dispatch.2.1 "glove.8int.bin" (by decide),
   c2_suffix_dispatch.2.2 "glove.txt" (by decide)⟩

/-- C7: loading a Format A file fails when the parsed vocabulary size or
dimension is non-positive; the well-formed two-record file above loads
successfully with both records; and with any byte appended the loader
reports unexpected data at the end of the file. -/
theorem c7_formatA_load :
    (∀ (bs : List ℕ) (v d : ℤ) (rest : List ℕ),
      model.parseHeaderA bs = some ((v, d), rest) → v ≤ 0 ∨ d ≤ 0 →
      model.loadModel32 bs = Except.error model.LoadErr.invalidHeader) ∧
    model.loadModel32 goodFileA =
      Except.ok ([([97, 98], [[1, 0, 0, 0], [2, 0, 0, 0]]),
                  ([99, 100], [[3, 0, 0, 0], [4, 0, 0, 0]])], 2) ∧
    (∀ b : ℕ, model.loadModel32 (goodFileA ++ [b]) =
      Except.error model.LoadErr.trailingData) := by
  refine ⟨?_, by rfl, ?_⟩
  · intro bs v d rest hparse hvd
    unfold model.loadModel32
    rw [hparse]
    simp [hvd]
  · intro b
    rfl

/-- C7 witness: the non-positive header branch applied to the concrete
headers "0 2\n" and "2 -1\n". -/
theorem c7_formatA_load_witness :
    model.loadModel32 [48, 32, 50, 10] = Except.error model.LoadErr.invalidHeader ∧
    model.loadModel32 [50, 32, 45, 49, 10] = Except.error model.LoadErr.invalidHeader :=
  ⟨c7_formatA_load.1 [48, 32, 50, 10] 0 2 [] (by rfl) (by decide),
   c7_formatA_load.1 [50, 32, 45, 49, 10] 2 (-1) [] (by rfl) (by decide)⟩

namespace similarity

theorem lookupA_cons {α : Type} (k : String) (v : α) (c : List (String × α)) (key : String) :
    lookupA ((k, v) :: c) key = if k = key then some v else lookupA c key := rfl

/-- A legacy memoization step never removes or overwrites a cache binding. -/
theorem memoizedSC_preserves (ops : FloatOps) (sc : SimilarityCache)
    (q t : String) (qv tv : List F) (k : String) (v : F)
    (h : lookupA sc.cache k = some v) :
    lookupA ((sc.memoizedCalculateSimilarity ops q t qv tv).2.1).cache k = some v := by
  unfold SimilarityCache.memoizedCalculateSimilarity
  by_cases hlen : 30 < (q ++ "|" ++ t).utf8ByteSize
  · simp [hlen, h]
  · simp only [hlen, if_false]
    cases hl : lookupA sc.cache (q ++ "|" ++ t) with
    | some r => simp [h]
    | none =>
        have hne : (q ++ "|" ++ t) ≠ k := fun he => by rw [he, h] at hl; exact Option.noConfusion hl
        simp [lookupA_cons, hne, h]

/-- While the pair key is bound in the cache, every later probe of that pair
returns the bound value without running the kernel. -/
theorem runSC_stable (ops : FloatOps) (q t : String) (v : F)
    (hlen : ¬ 30 < (q ++ "|" ++ t).utf8ByteSize) :
    ∀ (calls : List SCall) (sc : SimilarityCache),
      lookupA sc.cache (q ++ "|" ++ t) = some v →
      ∀ e ∈ (runSC ops sc calls).1, e.1.q = q → e.1.t = t →
        e.2.1 = v ∧ e.2.2 = false := by
  intro calls
  induction calls with
  | nil => intro sc _ e he; simp [runSC] at he
  | cons c rest ih =>
      intro sc hsc e he hq ht
      simp only [runSC, List.mem_cons] at he
      rcases he with he | he
      · have hkey : c.q ++ "|" ++ c.t = q ++ "|" ++ t := by
          have h1 : c.q = q := by rw [← hq, he]
          have h2 : c.t = t := by rw [← ht, he]
          rw [h1, h2]
        have hstep : sc.memoizedCalculateSimilarity ops c.q c.t c.qv c.tv = (v, sc, false) := by
          unfold SimilarityCache.memoizedCalculateSimilarity
          rw [hkey]
          simp [hlen, hsc]
        rw [he, hstep]
        exact ⟨rfl, rfl⟩
      · exact ih _ (memoizedSC_preserves ops sc c.q c.t c.qv c.tv _ v hsc) e he hq ht

/-- At-most-once computation and value stability per ordered pair for the
legacy cache, over an arbitrary probe sequence from an arbitrary starting
cache, provided the pair key fits the 30-byte cap. -/
theorem runSC_once (ops : FloatOps) (q t : String)
    (hlen : ¬ 30 < (q ++ "|" ++ t).utf8ByteSize) :
    ∀ (calls : List SCall) (sc : SimilarityCache),
      (((runSC ops sc calls).1.filter (fun e => e.1.q = q ∧ e.1.t = t)).countP
        (fun e => e.2.2)) ≤ 1 ∧
      ∃ v : F, ∀ e ∈ (runSC ops sc calls).1.filter (fun e => e.1.q = q ∧ e.1.t = t),
        e.2.1 = v := by
  intro calls
  induction calls with
  | nil =>
      intro sc
      exact ⟨by simp [runSC], F.nan, by simp [runSC]⟩
  | cons c rest ih =>
      intro sc
      by_cases hqt : c.q = q ∧ c.t = t
      · obtain ⟨hq, ht⟩ := hqt
        have hkey : c.q ++ "|" ++ c.t = q ++ "|" ++ t := by rw [hq, ht]
        have hmem : (decide (c.q = q ∧ c.t = t)) = true := by simp [hq, ht]
        cases hl : lookupA sc.cache (q ++ "|" ++ t) with
        | some v =>
            have hstep : sc.memoizedCalculateSimilarity ops c.q c.t c.qv c.tv = (v, sc, false) := by
              unfold SimilarityCache.memoizedCalculateSimilarity
              rw [hkey]
              simp [hlen, hl]
            have hrest := runSC_stable ops q t v hlen rest sc hl
            have htrace : (runSC ops sc (c :: rest)).1 =
                (c, v, false) :: (runSC ops sc rest).1 := by
              simp only [runSC, hstep]
            have hzero : ((runSC ops sc rest).1.filter
                (fun e => e.1.q = q ∧ e.1.t = t)).countP (fun e => e.2.2) = 0 := by
              rw [List.countP_eq_zero]
              intro a ha
              rw [List.mem_filter] at ha
              obtain ⟨ha1, ha2⟩ := ha
              simp only [decide_eq_true_eq] at ha2
              have := (hrest a ha1 ha2.1 ha2.2).2
              simp [this]
            constructor
            · rw [htrace, List.filter_cons, hmem]
              simp only [if_true, List.countP_cons, hzero]
              simp
            · refine ⟨v, ?_⟩
              intro e he
              rw [htrace, List.filter_cons, hmem] at he
              simp only [if_true, List.mem_cons] at he
              rcases he with he | he
              · rw [he]
              · rw [List.mem_filter] at he
                obtain ⟨he1, he2⟩ := he
                simp only [decide_eq_true_eq] at he2
                exact (hrest e he1 he2.1 he2.2).1
        | none =>
            have hstep : sc.memoizedCalculateSimilarity ops c.q c.t c.qv c.tv =
                (calculateSimilarity ops c.qv c.tv,
                 ⟨(q ++ "|" ++ t, calculateSimilarity ops c.qv c.tv) :: sc.cache⟩, true) := by
              unfold SimilarityCache.memoizedCalculateSimilarity
              rw [hkey]
              simp [hlen, hl]
            have hlook : lookupA ((q ++ "|" ++ t, calculateSimilarity ops c.qv c.tv) :: sc.cache)
                (q ++ "|" ++ t) = some (calculateSimilarity ops c.qv c.tv) := by
              simp [lookupA_cons]
            have hrest := runSC_stable ops q t (calculateSimilarity ops c.qv c.tv) hlen rest
              ⟨(q ++ "|" ++ t, calculateSimilarity ops c.qv c.tv) :: sc.cache⟩ hlook
            have htrace : (runSC ops sc (c :: rest)).1 =
                (c, calculateSimilarity ops c.qv c.tv, true) ::
                (runSC ops ⟨(q ++ "|" ++ t, calculateSimilarity ops c.qv c.tv) :: sc.cache⟩
                  rest).1 := by
              simp only [runSC, hstep]
            have hzero : ((runSC ops
                ⟨(q ++ "|" ++ t, calculateSimilarity ops c.qv c.tv) :: sc.cache⟩ rest).1.filter
                (fun e => e.1.q = q ∧ e.1.t = t)).countP (fun e => e.2.2) = 0 := by
              rw [List.countP_eq_zero]
              intro a ha
              rw [List.mem_filter] at ha
              obtain ⟨ha1, ha2⟩ := ha
              simp only [decide_eq_true_eq] at ha2
              have := (hrest a ha1 ha2.1 ha2.2).2
              simp [this]
            constructor
            · rw [htrace, List.filter_cons, hmem]
              simp only [if_true, List.countP_cons, hzero]
              simp
            · refine ⟨calculateSimilarity ops c.qv c.tv, ?_⟩
              intro e he
              rw [htrace, List.filter_cons, hmem] at he
              simp only [if_true, List.mem_cons] at he
              rcases he with he | he
              · rw [he]
              · rw [List.mem_filter] at he
                obtain ⟨he1, he2⟩ := he
                simp only [decide_eq_true_eq] at he2
                exact (hrest e he1 he2.1 he2.2).1
      · have hmem : (decide (c.q = q ∧ c.t = t)) = false := by
          simpa using hqt
        have htrace : ∀ x : SimilarityCache,
            ((runSC ops x (c :: rest)).1.filter (fun e => e.1.q = q ∧ e.1.t = t)) =
            ((runSC ops ((x.memoizedCalculateSimilarity ops c.q c.t c.qv c.tv).2.1)
              rest).1.filter (fun e => e.1.q = q ∧ e.1.t = t)) := by
          intro x
          simp [runSC, List.filter_cons, hmem]
          exact fun h1 h2 => hqt ⟨h1, h2⟩
        rw [htrace sc]
        exact ih _

/-- A non-panicking step of the current cache never removes or overwrites a
binding. -/
theorem memoizedC_preserves (ops : FloatOps) (c : Cache) (q t : String) (qv tv : VecE)
    (v : F) (c2 : Cache) (comp : Bool) (k : String) (w : F)
    (hstep : c.memoizedCalculateSimilarity ops q t qv tv = Except.ok (v, c2, comp))
    (h : lookupA c.cache k = some w) :
    lookupA c2.cache k = some w := by
  simp only [Cache.memoizedCalculateSimilarity] at hstep
  cases hl : lookupA c.cache t with
  | some r =>
      simp only [hl, Except.ok.injEq, Prod.mk.injEq] at hstep
      obtain ⟨-, hc, -⟩ := hstep
      rw [← hc]
      exact h
  | none =>
      simp only [hl] at hstep
      have hne : t ≠ k := fun he => by rw [he, h] at hl; exact Option.noConfusion hl
      cases qv with
      | f32 a =>
          cases tv with
          | f32 b =>
              simp only [Except.ok.injEq, Prod.mk.injEq] at hstep
              obtain ⟨-, hc, -⟩ := hstep
              rw [← hc]
              simp [lookupA_cons, hne, h]
          | i8 b => exact absurd hstep (by simp)
      | i8 a =>
          cases tv with
          | f32 b => exact absurd hstep (by simp)
          | i8 b =>
              simp only [Except.ok.injEq, Prod.mk.injEq] at hstep
              obtain ⟨-, hc, -⟩ := hstep
              rw [← hc]
              simp [lookupA_cons, hne, h]

/-- While a candidate token is bound in the current cache, every later probe
mentioning that token (under any query) returns the bound value without
running a kernel. -/
theorem runC_stable (ops : FloatOps) (t : String) (v : F) :
    ∀ (calls : List CCall) (c : Cache) (tr : List (CCall × F × Bool)) (cf : Cache),
      lookupA c.cache t = some v →
      runC ops c calls = Except.ok (tr, cf) →
      ∀ e ∈ tr, e.1.t = t → e.2.1 = v ∧ e.2.2 = false := by
  intro calls
  induction calls with
  | nil =>
      intro c tr cf _ hrun e he
      simp only [runC, Except.ok.injEq, Prod.mk.injEq] at hrun
      obtain ⟨h1, -⟩ := hrun
      rw [← h1] at he
      simp at he
  | cons call rest ih =>
      intro c tr cf hc hrun e he het
      simp only [runC] at hrun
      cases hstep : c.memoizedCalculateSimilarity ops call.q call.t call.qv call.tv with
      | error p => simp only [hstep] at hrun; exact Except.noConfusion hrun
      | ok s =>
          obtain ⟨v2, c2, comp⟩ := s
          simp only [hstep] at hrun
          cases hrest : runC ops c2 rest with
          | error p => simp only [hrest] at hrun; exact Except.noConfusion hrun
          | ok s2 =>
              obtain ⟨tr2, cf2⟩ := s2
              simp only [hrest, Except.ok.injEq, Prod.mk.injEq] at hrun
              obtain ⟨htr, -⟩ := hrun
              rw [← htr] at he
              rcases List.mem_cons.mp he with he1 | he1
              · rw [he1] at het
                simp only at het
                have hstep2 : c.memoizedCalculateSimilarity ops call.q call.t call.qv call.tv =
                    Except.ok (v, c, false) := by
                  simp only [Cache.memoizedCalculateSimilarity, het, hc]
                rw [hstep2] at hstep
                simp only [Except.ok.injEq, Prod.mk.injEq] at hstep
                obtain ⟨hv, -, hcomp⟩ := hstep
                rw [he1]
                exact ⟨hv.symm, hcomp.symm⟩
              · exact ih c2 tr2 cf2
                  (memoizedC_preserves ops c call.q call.t call.qv call.tv v2 c2 comp t v hstep hc)
                  hrest e he1 het

/-- At-most-once computation and value stability per candidate token for the
current cache: the memo key is the token alone, so the guarantee ranges over
all queries probing that token. -/
theorem runC_once (ops : FloatOps) (t : String) :
    ∀ (calls : List CCall) (c : Cache) (tr : List (CCall × F × Bool)) (cf : Cache),
      runC ops c calls = Except.ok (tr, cf) →
      ((tr.filter (fun e => e.1.t = t)).countP (fun e => e.2.2)) ≤ 1 ∧
      ∃ v : F, ∀ e ∈ tr.filter (fun e => e.1.t = t), e.2.1 = v := by
  intro calls
  induction calls with
  | nil =>
      intro c tr cf hrun
      simp only [runC, Except.ok.injEq, Prod.mk.injEq] at hrun
      obtain ⟨h1, -⟩ := hrun
      rw [← h1]
      exact ⟨by simp, F.nan, by simp⟩
  | cons call rest ih =>
      intro c tr cf hrun
      simp only [runC] at hrun
      cases hstep : c.memoizedCalculateSimilarity ops call.q call.t call.qv call.tv with
      | error p => simp only [hstep] at hrun; exact Except.noConfusion hrun
      | ok s =>
          obtain ⟨v2, c2, comp⟩ := s
          simp only [hstep] at hrun
          cases hrest : runC ops c2 rest with
          | error p => simp only [hrest] at hrun; exact Except.noConfusion hrun
          | ok s2 =>
              obtain ⟨tr2, cf2⟩ := s2
              simp only [hrest, Except.ok.injEq, Prod.mk.injEq] at hrun
              obtain ⟨htr, -⟩ := hrun
              by_cases het : call.t = t
              · have hmem : (decide (call.t = t)) = true := by simp [het]
                cases hl : lookupA c.cache t with
                | some v =>
                    have hstep2 : c.memoizedCalculateSimilarity ops call.q call.t call.qv call.tv =
                        Except.ok (v, c, false) := by
                      simp only [Cache.memoizedCalculateSimilarity, het, hl]
                    rw [hstep2] at hstep
                    simp only [Except.ok.injEq, Prod.mk.injEq] at hstep
                    obtain ⟨hv2, hc2, hcomp⟩ := hstep
                    rw [← hc2] at hrest
                    have hrest2 := runC_stable ops t v rest c tr2 cf2 hl hrest
                    have hzero : ((tr2.filter (fun e => e.1.t = t)).countP
                        (fun e => e.2.2)) = 0 := by
                      rw [List.countP_eq_zero]
                      intro a ha
                      rw [List.mem_filter] at ha
                      obtain ⟨ha1, ha2⟩ := ha
                      simp only [decide_eq_true_eq] at ha2
                      have := (hrest2 a ha1 ha2).2
                      simp [this]
                    constructor
                    · rw [← htr, List.filter_cons, hmem]
                      simp only [if_true, List.countP_cons, hzero, ← hcomp]
                      simp
                    · refine ⟨v, ?_⟩
                      intro e he
                      rw [← htr, List.filter_cons, hmem] at he
                      simp only [if_true, List.mem_cons] at he
                      rcases he with he | he
                      · rw [he, ← hv2]
                      · rw [List.mem_filter] at he
                        obtain ⟨he1, he2⟩ := he
                        simp only [decide_eq_true_eq] at he2
                        exact (hrest2 e he1 he2).1
                | none =>
                    have hlook : lookupA c2.cache t = some v2 := by
                      simp only [Cache.memoizedCalculateSimilarity, het, hl] at hstep
                      cases hqv : call.qv with
                      | f32 a =>
                          cases htv : call.tv with
                          | f32 b =>
                              rw [hqv, htv] at hstep
                              simp only [Except.ok.injEq, Prod.mk.injEq] at hstep
                              obtain ⟨ha, hb, -⟩ := hstep
                              rw [← hb, ← ha]
                              simp [lookupA_cons]
                          | i8 b =>
                              rw [hqv, htv] at hstep
                              exact absurd hstep (by simp)
                      | i8 a =>
                          cases htv : call.tv with
                          | f32 b =>
                              rw [hqv, htv] at hstep
                              exact absurd hstep (by simp)
                          | i8 b =>
                              rw [hqv, htv] at hstep
                              simp only [Except.ok.injEq, Prod.mk.injEq] at hstep
                              obtain ⟨ha, hb, -⟩ := hstep
                              rw [← hb, ← ha]
                              simp [lookupA_cons]
                    have hrest2 := runC_stable ops t v2 rest c2 tr2 cf2 hlook hrest
                    have hzero : ((tr2.filter (fun e => e.1.t = t)).countP
                        (fun e => e.2.2)) = 0 := by
                      rw [List.countP_eq_zero]
                      intro a ha
                      rw [List.mem_filter] at ha
                      obtain ⟨ha1, ha2⟩ := ha
                      simp only [decide_eq_true_eq] at ha2
                      have := (hrest2 a ha1 ha2).2
                      simp [this]
                    constructor
                    · rw [← htr, List.filter_cons, hmem]
                      simp only [if_true, List.countP_cons, hzero]
                      cases comp <;> simp
                    · refine ⟨v2, ?_⟩
                      intro e he
                      rw [← htr, List.filter_cons, hmem] at he
                      simp only [if_true, List.mem_cons] at he
                      rcases he with he | he
                      · rw [he]
                      · rw [List.mem_filter] at he
                        obtain ⟨he1, he2⟩ := he
                        simp only [decide_eq_true_eq] at he2
                        exact (hrest2 e he1 he2).1
              · have hmem : (decide (call.t = t)) = false := by simp [het]
                have hfe : tr.filter (fun e => e.1.t = t) =
                    tr2.filter (fun e => e.1.t = t) := by
                  rw [← htr, List.filter_cons, hmem]
                  simp
                rw [hfe]
                exact ih c2 tr2 cf2 hrest

end similarity

/-- Square root of 25 over the rationals. -/
theorem sqrt25 : Rat.sqrt 25 = 5 := by norm_num [Rat.sqrt]

/-- Concrete cosine of the king vector [3,4] against the man vector [5,0]. -/
theorem cosKingMan :
    similarity.calculateSimilarity32bit exactOps [F.fin 3, F.fin 4] [F.fin 5, F.fin 0] =
      F.fin (3/5) := by
  simp [similarity.calculateSimilarity32bit, similarity.calculateSimilarity,
    similarity.simAccum, mulF, addF, divF, exactOps]
  norm_num [sqrt25]

/-- Concrete cosine of the queen vector [4,3] against the man vector [5,0]. -/
theorem cosQueenMan :
    similarity.calculateSimilarity32bit exactOps [F.fin 4, F.fin 3] [F.fin 5, F.fin 0] =
      F.fin (4/5) := by
  simp [similarity.calculateSimilarity32bit, similarity.calculateSimilarity,
    similarity.simAccum, mulF, addF, divF, exactOps]
  norm_num [sqrt25]

/-- C1 counterexample: the claim fails on both cache implementations.  In the
legacy pair-keyed `SimilarityCache`, a pair whose key exceeds 30 bytes runs
the cosine kernel on every probe: two identical probes perform two
computations.  In the current `Cache`, the key is the candidate token alone,
so the probe of (queen, man) returns the value 3/5 computed for (king, man)
rather than the value 4/5 of its own pair. -/
theorem c1_memoization_counterexample :
    ((similarity.runSC exactOps ⟨[]⟩ [longCall, longCall]).1.filter
      (fun e => e.1.q = longQuery ∧ e.1.t = "b")).countP (fun e => e.2.2) = 2 ∧
    similarity.runC exactOps ⟨[]⟩ [callKing, callQueen] =
      Except.ok ([(callKing, F.fin (3/5), true), (callQueen, F.fin (3/5), false)],
        ⟨[("man", F.fin (3/5))]⟩) ∧
    similarity.runC exactOps ⟨[]⟩ [callQueen] =
      Except.ok ([(callQueen, F.fin (4/5), true)], ⟨[("man", F.fin (4/5))]⟩) ∧
    F.fin (3/5) ≠ F.fin (4/5) := by
  refine ⟨by decide, ?_, ?_, ?_⟩
  · simp [similarity.runC, similarity.Cache.memoizedCalculateSimilarity, callKing, callQueen,
      lookupA, cosKingMan]
  · simp [similarity.runC, similarity.Cache.memoizedCalculateSimilarity, callQueen,
      lookupA, cosQueenMan]
  · simp only [ne_eq, F.fin.injEq]
    norm_num

/-- C1 (amended): in the legacy `SimilarityCache` the key is the ordered pair
(query, "|", candidate); for every pair whose key is at most 30 bytes the
cosine kernel runs at most once for the life of the cache and every probe of
the pair returns one identical value, while a pair with a longer key bypasses
the cache and recomputes on every probe.  The current `Cache` keys by the
candidate token alone: its guarantee is at most one computation and one
identical value per distinct candidate token, across all queries. -/
theorem c1_memoization :
    (∀ (ops : FloatOps) (calls : List similarity.SCall) (q t : String),
      (q ++ "|" ++ t).utf8ByteSize ≤ 30 →
      (((similarity.runSC ops ⟨[]⟩ calls).1.filter
          (fun e => e.1.q = q ∧ e.1.t = t)).countP (fun e => e.2.2)) ≤ 1 ∧
      ∃ v : F, ∀ e ∈ (similarity.runSC ops ⟨[]⟩ calls).1.filter
          (fun e => e.1.q = q ∧ e.1.t = t), e.2.1 = v) ∧
    (∀ (ops : FloatOps) (sc : similarity.SimilarityCache) (q t : String) (qv tv : List F),
      30 < (q ++ "|" ++ t).utf8ByteSize →
      sc.memoizedCalculateSimilarity ops q t qv tv =
        (similarity.calculateSimilarity ops qv tv, sc, true)) ∧
    (∀ (ops : FloatOps) (calls : List similarity.CCall) (t : String)
        (tr : List (similarity.CCall × F × Bool)) (cf : similarity.Cache),
      similarity.runC ops ⟨[]⟩ calls = Except.ok (tr, cf) →
      ((tr.filter (fun e => e.1.t = t)).countP (fun e => e.2.2)) ≤ 1 ∧
      ∃ v : F, ∀ e ∈ tr.filter (fun e => e.1.t = t), e.2.1 = v) := by
  refine ⟨?_, ?_, ?_⟩
  · intro ops calls q t h
    exact similarity.runSC_once ops q t (by omega) calls ⟨[]⟩
  · intro ops sc q t qv tv h
    simp [similarity.SimilarityCache.memoizedCalculateSimilarity, h]
  · intro ops calls t tr cf h
    exact similarity.runC_once ops t calls ⟨[]⟩ tr cf h

/-- C1 witness: the amended guarantees applied to concrete probe sequences. -/
theorem c1_memoization_witness :
    ((((similarity.runSC exactOps ⟨[]⟩
        [⟨"king", "man", [F.fin 3, F.fin 4], [F.fin 5, F.fin 0]⟩,
         ⟨"king", "man", [F.fin 3, F.fin 4], [F.fin 5, F.fin 0]⟩]).1.filter
        (fun e => e.1.q = "king" ∧ e.1.t = "man")).countP (fun e => e.2.2)) ≤ 1 ∧
      ∃ v : F, ∀ e ∈ (similarity.runSC exactOps ⟨[]⟩
        [⟨"king", "man", [F.fin 3, F.fin 4], [F.fin 5, F.fin 0]⟩,
         ⟨"king", "man", [F.fin 3, F.fin 4], [F.fin 5, F.fin 0]⟩]).1.filter
        (fun e => e.1.q = "king" ∧ e.1.t = "man"), e.2.1 = v) ∧
    (similarity.SimilarityCache.mk []).memoizedCalculateSimilarity exactOps
        longQuery "b" [F.fin 1] [F.fin 1] =
      (similarity.calculateSimilarity exactOps [F.fin 1] [F.fin 1],
        similarity.SimilarityCache.mk [], true) :=
  ⟨c1_memoization.1 exactOps
      [⟨"king", "man", [F.fin 3, F.fin 4], [F.fin 5, F.fin 0]⟩,
       ⟨"king", "man", [F.fin 3, F.fin 4], [F.fin 5, F.fin 0]⟩] "king" "man" (by decide),
   c1_memoization.2.1 exactOps ⟨[]⟩ longQuery "b" [F.fin 1] [F.fin 1] (by decide)⟩

/-- C4: a failing input for query independence.  With the current cache, the
score returned for the pair (queen, man) depends on whether (king, man) was
probed first: probing king first hands queen the cached 3/5 computed from the
king vector, probing queen first computes 4/5 from the queen vector. -/
theorem c4_query_independence_bug :
    similarity.runC exactOps ⟨[]⟩ [callKing, callQueen] =
      Except.ok ([(callKing, F.fin (3/5), true), (callQueen, F.fin (3/5), false)],
        ⟨[("man", F.fin (3/5))]⟩) ∧
    similarity.runC exactOps ⟨[]⟩ [callQueen, callKing] =
      Except.ok ([(callQueen, F.fin (4/5), true), (callKing, F.fin (4/5), false)],
        ⟨[("man", F.fin (4/5))]⟩) ∧
    F.fin (3/5) ≠ F.fin (4/5) := by
  refine ⟨?_, ?_, ?_⟩
  · simp [similarity.runC, similarity.Cache.memoizedCalculateSimilarity, callKing, callQueen,
      lookupA, cosKingMan]
  · simp [similarity.runC, similarity.Cache.memoizedCalculateSimilarity, callKing, callQueen,
      lookupA, cosQueenMan]
  · simp only [ne_eq, F.fin.injEq]
    norm_num

/-- C5: mixing a Real ([]float32) operand with a Quantized ([]int8) operand
does not return an IncompatibleVectorTypes error: whenever the candidate
token is not already cached, the unchecked type assertion panics, in either
direction of the mix.  No error-return path for this condition exists in the
code. -/
theorem c5_mixed_vector_types_panic :
    (∀ (ops : FloatOps) (c : similarity.Cache) (q t : String) (qv : List F) (tv : List ℤ),
      lookupA c.cache t = none →
      c.memoizedCalculateSimilarity ops q t (similarity.VecE.f32 qv) (similarity.VecE.i8 tv) =
        Except.error similarity.GoPanic.typeAssertionFailed) ∧
    (∀ (ops : FloatOps) (c : similarity.Cache) (q t : String) (qv : List ℤ) (tv : List F),
      lookupA c.cache t = none →
      c.memoizedCalculateSimilarity ops q t (similarity.VecE.i8 qv) (similarity.VecE.f32 tv) =
        Except.error similarity.GoPanic.typeAssertionFailed) := by
  constructor
  · intro ops c q t qv tv h
    simp [similarity.Cache.memoizedCalculateSimilarity, h]
  · intro ops c q t qv tv h
    simp [similarity.Cache.memoizedCalculateSimilarity, h]

/-- C5 witness: the panic on a concrete mixed-representation probe from an
empty cache. -/
theorem c5_mixed_vector_types_panic_witness :
    (similarity.Cache.mk []).memoizedCalculateSimilarity exactOps "king" "man"
      (similarity.VecE.f32 [F.fin 1, F.fin 0]) (similarity.VecE.i8 [1, 0]) =
      Except.error similarity.GoPanic.typeAssertionFailed :=
  c5_mixed_vector_types_panic.1 exactOps ⟨[]⟩ "king" "man" [F.fin 1, F.fin 0] [1, 0] rfl

/-- C6: whenever the normalized token text equals the normalized query text,
the per-token test reports a match with score exactly 1.0, for every store,
every query-in-model flag, every query vector and every cache, which it
returns untouched: the fast path holds in particular for an
out-of-vocabulary query and consults no vectors. -/
theorem c6_exact_match_fast_path (ops : FloatOps) (similarityThreshold : F)
    (query : String) (queryInModel : Bool) (queryVector : similarity.VecE)
    (store : List (String × similarity.VecE)) (c : similarity.Cache)
    (ignoreCase : Bool) (line token : String) (s0 : F) (h0 : String)
    (h : processor.normalize ignoreCase token = processor.normalize ignoreCase query) :
    processor.tokenTestS ops similarityThreshold (processor.normalize ignoreCase query)
      queryInModel queryVector store c ignoreCase line token s0 h0 =
      Except.ok (true, F.fin 1, processor.highlight line token, c) := by
  simp [processor.tokenTestS, h]

/-- C6 witness: the fast path on a concrete out-of-vocabulary query against
an empty store, with an arbitrary query vector. -/
theorem c6_exact_match_fast_path_witness :
    processor.tokenTestS exactOps (F.fin (7/10)) (processor.normalize true "Zorgle")
      false (similarity.VecE.f32 []) [] ⟨[]⟩ true "a Zorgle appears" "Zorgle" (F.fin 0) "" =
      Except.ok (true, F.fin 1, processor.highlight "a Zorgle appears" "Zorgle", ⟨[]⟩) :=
  c6_exact_match_fast_path exactOps (F.fin (7/10)) "Zorgle" false (similarity.VecE.f32 [])
    [] ⟨[]⟩ true "a Zorgle appears" "Zorgle" (F.fin 0) "" rfl

/-- C8: the similarity path counts a token as a match exactly when its score
is strictly greater than the threshold; a score equal to the threshold does
not match.  Stated over a cache already holding the score for this token, so
the score the engine returns is the seeded value s. -/
theorem c8_strict_threshold (ops : FloatOps) (similarityThreshold : F)
    (queryTokenToCheck : String) (queryVector : similarity.VecE)
    (store : List (String × similarity.VecE)) (cache : List (String × F))
    (ignoreCase : Bool) (line token : String) (s0 : F) (h0 : String)
    (tv : similarity.VecE) (s : F)
    (hneq : processor.normalize ignoreCase token ≠ queryTokenToCheck)
    (htv : lookupA store (processor.normalize ignoreCase token) = some tv)
    (hs : lookupA cache (processor.normalize ignoreCase token) = some s) :
    processor.tokenTestS ops similarityThreshold queryTokenToCheck true queryVector
      store ⟨cache⟩ ignoreCase line token s0 h0 =
      (if gtF s similarityThreshold then
        Except.ok (true, s, processor.highlight line token, ⟨cache⟩)
      else
        Except.ok (false, s, h0, ⟨cache⟩)) ∧
    (s = similarityThreshold →
      processor.tokenTestS ops similarityThreshold queryTokenToCheck true queryVector
        store ⟨cache⟩ ignoreCase line token s0 h0 =
        Except.ok (false, s, h0, ⟨cache⟩)) := by
  have hcall : (similarity.Cache.mk cache).memoizedCalculateSimilarity ops
      queryTokenToCheck (processor.normalize ignoreCase token) queryVector tv =
      Except.ok (s, ⟨cache⟩, false) := by
    simp only [similarity.Cache.memoizedCalculateSimilarity, hs]
  constructor
  · simp [processor.tokenTestS, hneq, model.getEmbedding, htv, hcall]
  · intro heq
    subst heq
    simp [processor.tokenTestS, hneq, model.getEmbedding, htv, hcall, gtF_irrefl]

/-- C8 witness: with threshold 1/2 a token whose cached score is exactly 1/2
does not match, while a cached score of 3/4 does. -/
theorem c8_strict_threshold_witness :
    processor.tokenTestS exactOps (F.fin (1/2)) "king" true (similarity.VecE.f32 [F.fin 1])
      [("man", similarity.VecE.f32 [F.fin 1])] ⟨[("man", F.fin (1/2))]⟩
      false "a man" "man" (F.fin 0) "" =
      Except.ok (false, F.fin (1/2), "", ⟨[("man", F.fin (1/2))]⟩) ∧
    processor.tokenTestS exactOps (F.fin (1/2)) "king" true (similarity.VecE.f32 [F.fin 1])
      [("man", similarity.VecE.f32 [F.fin 1])] ⟨[("man", F.fin (3/4))]⟩
      false "a man" "man" (F.fin 0) "" =
      Except.ok (true, F.fin (3/4), processor.highlight "a man" "man",
        ⟨[("man", F.fin (3/4))]⟩) := by
  constructor
  · exact (c8_strict_threshold exactOps (F.fin (1/2)) "king" (similarity.VecE.f32 [F.fin 1])
      [("man", similarity.VecE.f32 [F.fin 1])] [("man", F.fin (1/2))] false "a man" "man"
      (F.fin 0) "" (similarity.VecE.f32 [F.fin 1]) (F.fin (1/2)) (by decide) rfl rfl).2 rfl
  · have h := (c8_strict_threshold exactOps (F.fin (1/2)) "king" (similarity.VecE.f32 [F.fin 1])
      [("man", similarity.VecE.f32 [F.fin 1])] [("man", F.fin (3/4))] false "a man" "man"
      (F.fin 0) "" (similarity.VecE.f32 [F.fin 1]) (F.fin (3/4)) (by decide) rfl rfl).1
    have hgt : gtF (F.fin (3/4)) (F.fin (1/2)) = true := by
      simp only [gtF, decide_eq_true_eq]
      norm_num
    rw [hgt] at h
    simpa using h

/-- Concrete cosine of the king vector [3,4] against the queen vector [4,3]. -/
theorem cosKingQueen :
    similarity.calculateSimilarity32bit exactOps [F.fin 3, F.fin 4] [F.fin 4, F.fin 3] =
      F.fin (24/25) := by
  simp [similarity.calculateSimilarity32bit, similarity.calculateSimilarity,
    similarity.simAccum, mulF, addF, divF, exactOps]
  norm_num [sqrt25]

/-- C3: a failing input for the first-match policy in the multi-query
processor.  Query "king" (vector [3,4]) against the line "queen king" with
threshold 1/2: the first qualifying pair in scan order is the token "queen"
with score 24/25, as the single-token run shows, but the full-line run keeps
scanning after that match, so the token "king" later overwrites the state and
the line is reported with score 1.0 and "king" highlighted. -/
theorem c3_first_match_bug :
    processor.prepareQueries storeKQ false ["king"] =
      ([("king", similarity.VecE.f32 [F.fin 3, F.fin 4])], [("king", true)]) ∧
    processor.processLine exactOps (F.fin (1/2)) storeKQ [("king", true)]
      [("king", similarity.VecE.f32 [F.fin 3, F.fin 4])] false false
      "queen king" ["queen"] ⟨[]⟩ =
      Except.ok ({ matched := true,
                   highlightedLine := processor.highlight "queen king" "queen",
                   similarityScore := F.fin (24/25),
                   matchSimilarityScore := F.fin (24/25) },
        ⟨[("queen", F.fin (24/25))]⟩, []) ∧
    processor.processLine exactOps (F.fin (1/2)) storeKQ [("king", true)]
      [("king", similarity.VecE.f32 [F.fin 3, F.fin 4])] false false
      "queen king" ["queen", "king"] ⟨[]⟩ =
      Except.ok ({ matched := true,
                   highlightedLine := processor.highlight "queen king" "king",
                   similarityScore := F.fin 1, matchSimilarityScore := F.fin 1 },
        ⟨[("queen", F.fin (24/25))]⟩, []) ∧
    F.fin (24/25) ≠ F.fin 1 := by
  have hgt : gtF (F.fin (24/25)) (F.fin 2⁻¹) = true := by
    simp only [gtF, decide_eq_true_eq]
    norm_num
  refine ⟨?_, ?_, ?_, ?_⟩
  · simp [processor.prepareQueries, processor.normalize, model.getEmbedding, storeKQ, lookupA]
  · simp [processor.processLine, processor.tokenLoop, processor.queryLoop,
      processor.normalize, model.getEmbedding, storeKQ, lookupA,
      similarity.Cache.memoizedCalculateSimilarity, cosKingQueen, hgt]
  · simp [processor.processLine, processor.tokenLoop, processor.queryLoop,
      processor.normalize, model.getEmbedding, storeKQ, lookupA,
      similarity.Cache.memoizedCalculateSimilarity, cosKingQueen, hgt]
  · simp only [ne_eq, F.fin.injEq]
    norm_num

theorem lastN_length_le {α : Type} (n : ℕ) (xs : List α) : (lastN n xs).length ≤ n := by
  simp only [lastN, List.length_drop]
  omega

theorem lastN_of_length_le {α : Type} {n : ℕ} {xs : List α} (h : xs.length ≤ n) :
    lastN n xs = xs := by
  simp only [lastN, Nat.sub_eq_zero_of_le h, List.drop_zero]

theorem lastN_absorb {α : Type} (n : ℕ) (xs ys : List α) :
    lastN n (lastN n xs ++ ys) = lastN n (xs ++ ys) := by
  have hj : xs.length - n ≤ xs.length := Nat.sub_le _ _
  simp only [lastN]
  rw [← List.drop_append_of_le_length hj, List.drop_drop]
  congr 1
  simp only [List.length_append, List.length_drop]
  omega

/-- One step of the context-buffer update performed by the scanner on a
non-matching line coincides with keeping the last `n` entries of the extended
history, provided the buffer already holds at most `n` entries. -/
theorem trimCtx_lastN {α : Type} (contextBefore : ℤ) (hpos : 0 < contextBefore)
    (buf : List α) (x : α) (hlen : buf.length ≤ contextBefore.toNat) :
    processor.trimCtx contextBefore (buf ++ [x]) =
      lastN contextBefore.toNat (buf ++ [x]) := by
  simp only [processor.trimCtx, lastN, List.length_append, List.length_cons,
    List.length_nil]
  by_cases h : contextBefore < ((buf.length + 1 : ℕ) : ℤ)
  · have h1 : buf.length = contextBefore.toNat := by omega
    simp only [h, if_true]
    congr 1
    omega
  · simp only [h, if_false]
    have h2 : buf.length + 1 ≤ contextBefore.toNat := by omega
    rw [Nat.sub_eq_zero_of_le h2, List.drop_zero]

theorem ctxOf_nil (cb : ℤ) (oM oL : Bool) : ctxOf cb oM oL [] = [] := by
  unfold ctxOf
  split
  · simp [lastN]
  · rfl

theorem ctxOf_pos {cb : ℤ} {oM oL : Bool} (h : 0 < cb ∧ oM = false ∧ oL = false)
    (acc : List (String × ℤ)) : ctxOf cb oM oL acc = lastN cb.toNat acc := by
  simp [ctxOf, h]

theorem ctxOf_neg {cb : ℤ} {oM oL : Bool} (h : ¬(0 < cb ∧ oM = false ∧ oL = false))
    (acc : List (String × ℤ)) : ctxOf cb oM oL acc = [] := by
  simp only [ctxOf, if_neg h]

theorem trimCtx_map {α β : Type} (f : α → β) (cb : ℤ) (xs : List α) :
    processor.trimCtx cb (xs.map f) = (processor.trimCtx cb xs).map f := by
  simp only [processor.trimCtx, List.length_map]
  by_cases h : cb < (xs.length : ℤ)
  · simp [h, List.map_drop]
  · simp [h]

theorem scanW_ctx (ops : FloatOps) (θ : F) (store : List (String × similarity.VecE))
    (qin : List (String × Bool)) (qvs : List (String × similarity.VecE))
    (cb ca : ℤ) (oM oL ic : Bool) :
    ∀ (lines : List (String × List String)) (s : processor.ScanSt),
      ∀ (acc : List (String × ℤ)) (sf : processor.ScanSt) (tr : List (String × ℤ × Bool)),
      processor.scanW ops θ store qin qvs cb ca oM oL ic lines s = Except.ok (sf, tr) →
      s.contextBuffer = (ctxOf cb oM oL acc).map Prod.fst →
      s.contextLineNumbers = (ctxOf cb oM oL acc).map (fun e => e.2) →
      sf.contextBuffer = (ctxOf cb oM oL (tailRunAux acc tr)).map Prod.fst ∧
      sf.contextLineNumbers = (ctxOf cb oM oL (tailRunAux acc tr)).map (fun e => e.2) := by
  intro lines s
  induction lines, s using processor.scanW.induct ops θ store qin qvs cb ca oM oL ic with
  | case1 s =>
      intro acc sf tr hrun h1 h2
      simp only [processor.scanW, Except.ok.injEq, Prod.mk.injEq] at hrun
      obtain ⟨hs, ht⟩ := hrun
      rw [← hs, ← ht]
      simp only [tailRunAux]
      exact ⟨h1, h2⟩
  | case2 line tokens rest s p hpl =>
      intro acc sf tr hrun h1 h2
      simp only [processor.scanW, hpl] at hrun
      exact Except.noConfusion hrun
  | case3 line tokens rest s st c1 outp hpl hm p hrec ih =>
      intro acc sf tr hrun h1 h2
      simp only [dite_eq_ite] at hrec
      simp only [processor.scanW, hpl, hm, eq_self_iff_true, if_true, hrec] at hrun
      exact Except.noConfusion hrun
  | case4 line tokens rest s st c1 outp hpl hm sf2 tr2 hrec ih =>
      intro acc sf tr hrun h1 h2
      simp only [dite_eq_ite] at hrec ih
      simp only [processor.scanW, hpl, hm, eq_self_iff_true, if_true, hrec,
        Except.ok.injEq, Prod.mk.injEq] at hrun
      obtain ⟨hs, ht⟩ := hrun
      rw [← hs, ← ht]
      simp only [tailRunAux, if_true]
      refine ih [] sf2 tr2 hrec ?_ ?_
      · simp [ctxOf_nil]
      · simp [ctxOf_nil]
  | case5 line tokens rest s st c1 outp hpl hm p hrec ih =>
      intro acc sf tr hrun h1 h2
      simp only [dite_eq_ite] at hrec
      simp only [processor.scanW, hpl, hm, if_false, hrec] at hrun
      exact Except.noConfusion hrun
  | case6 line tokens rest s st c1 outp hpl hm sf2 tr2 hrec ih =>
      intro acc sf tr hrun h1 h2
      simp only [dite_eq_ite] at hrec ih
      simp only [processor.scanW, hpl, hm, Bool.false_eq_true, if_false, hrec,
        Except.ok.injEq, Prod.mk.injEq] at hrun
      obtain ⟨hs, ht⟩ := hrun
      subst hs
      subst ht
      simp only [tailRunAux, Bool.false_eq_true, if_false]
      refine ih (acc ++ [(line, s.lineNumber + 1)]) sf2 tr2 hrec ?_ ?_
      · by_cases hacc : 0 < cb ∧ oM = false ∧ oL = false
        · rw [if_pos hacc]
          show processor.trimCtx cb (s.contextBuffer ++ [line]) = _
          rw [h1, ctxOf_pos hacc, ctxOf_pos hacc]
          have hmap : (lastN cb.toNat acc).map Prod.fst ++ [line] =
              ((lastN cb.toNat acc) ++ [(line, s.lineNumber + 1)]).map Prod.fst := by
            simp
          rw [hmap, trimCtx_map, trimCtx_lastN cb hacc.1 _ _ (lastN_length_le _ _),
            lastN_absorb]
        · rw [if_neg hacc]
          show s.contextBuffer = _
          rw [h1, ctxOf_neg hacc, ctxOf_neg hacc]
      · by_cases hacc : 0 < cb ∧ oM = false ∧ oL = false
        · rw [if_pos hacc]
          show processor.trimCtx cb (s.contextLineNumbers ++ [s.lineNumber + 1]) = _
          rw [h2, ctxOf_pos hacc, ctxOf_pos hacc]
          have hmap : (lastN cb.toNat acc).map (fun e => e.2) ++ [s.lineNumber + 1] =
              ((lastN cb.toNat acc) ++ [(line, s.lineNumber + 1)]).map (fun e => e.2) := by
            simp
          rw [hmap, trimCtx_map, trimCtx_lastN cb hacc.1 _ _ (lastN_length_le _ _),
            lastN_absorb]
        · rw [if_neg hacc]
          show s.contextLineNumbers = _
          rw [h2, ctxOf_neg hacc, ctxOf_neg hacc]

theorem tailRunAux_append_matched (e : String × ℤ × Bool) (he : e.2.2 = true) :
    ∀ (xs : List (String × ℤ × Bool)) (acc : List (String × ℤ)),
      tailRunAux acc (xs ++ [e]) = [] := by
  intro xs
  induction xs with
  | nil =>
      intro acc
      obtain ⟨l, n, m⟩ := e
      simp only at he
      simp [tailRunAux, he]
  | cons x rest ih =>
      intro acc
      obtain ⟨l, n, m⟩ := x
      simp only [List.cons_append, tailRunAux]
      exact ih _

/-- C9: starting from the empty ring, after any scan of the multi-query
processor that ends without a panic, the context buffers are exactly the
projections of the last contextBefore (line, line number) pairs of the
maximal non-matching suffix of the scanned lines — most recent entries,
in FIFO order, oldest dropped first — and are empty when context does not
accumulate.  Consequently the ring never holds more than contextBefore
entries, and it is empty immediately after a scan whose last scanned line
matched. -/
theorem c9_context_ring (ops : FloatOps) (θ : F)
    (store : List (String × similarity.VecE)) (qin : List (String × Bool))
    (qvs : List (String × similarity.VecE)) (cb ca : ℤ) (oM oL ic : Bool)
    (lines : List (String × List String)) (sf : processor.ScanSt)
    (tr : List (String × ℤ × Bool))
    (hrun : processor.scanW ops θ store qin qvs cb ca oM oL ic lines
      ⟨⟨[]⟩, 0, [], []⟩ = Except.ok (sf, tr)) :
    sf.contextBuffer = (ctxOf cb oM oL (tailRunAux [] tr)).map Prod.fst ∧
    sf.contextLineNumbers = (ctxOf cb oM oL (tailRunAux [] tr)).map (fun e => e.2) ∧
    sf.contextBuffer.length ≤ cb.toNat ∧
    (endsWithMatch tr = true →
      sf.contextBuffer = [] ∧ sf.contextLineNumbers = []) := by
  have h := scanW_ctx ops θ store qin qvs cb ca oM oL ic lines ⟨⟨[]⟩, 0, [], []⟩ [] sf tr
    hrun (by simp [ctxOf_nil]) (by simp [ctxOf_nil])
  refine ⟨h.1, h.2, ?_, ?_⟩
  · rw [h.1, List.length_map]
    by_cases hacc : 0 < cb ∧ oM = false ∧ oL = false
    · rw [ctxOf_pos hacc]
      exact lastN_length_le _ _
    · rw [ctxOf_neg hacc]
      simp
  · intro hend
    have hne : tr ≠ [] := by
      intro hnil
      rw [hnil] at hend
      simp [endsWithMatch] at hend
    have hdecomp : tr.dropLast ++ [tr.getLast hne] = tr := List.dropLast_append_getLast hne
    have hlast : (tr.getLast hne).2.2 = true := by
      have : tr.getLast? = some (tr.getLast hne) := List.getLast?_eq_getLast tr hne
      simpa [endsWithMatch, this] using hend
    have hzero : tailRunAux [] tr = [] := by
      rw [← hdecomp]
      exact tailRunAux_append_matched _ hlast _ _
    rw [hzero, ctxOf_nil] at h
    exact ⟨by rw [h.1]; rfl, by rw [h.2]; rfl⟩

/-- C9 witness: a two-line scan with contextBefore 1 whose first line does
not match and whose second line matches the query "b" exactly; the final
ring is the empty flush result. -/
theorem c9_context_ring_witness :
    ([] : List String) =
      (ctxOf 1 false false (tailRunAux [] [("a", 1, false), ("b", 2, true)])).map Prod.fst ∧
    ([] : List ℤ) =
      (ctxOf 1 false false (tailRunAux [] [("a", 1, false), ("b", 2, true)])).map
        (fun e => e.2) ∧
    ([] : List String).length ≤ (1 : ℤ).toNat ∧
    (endsWithMatch [("a", 1, false), ("b", 2, true)] = true →
      ([] : List String) = [] ∧ ([] : List ℤ) = []) :=
  c9_context_ring exactOps (F.fin (1/2)) [("b", similarity.VecE.f32 [F.fin 1])]
    [("b", true)] [("b", similarity.VecE.f32 [F.fin 1])] 1 0 false false false
    [("a", ["a"]), ("b", ["b"])] ⟨⟨[]⟩, 2, [], []⟩ [("a", 1, false), ("b", 2, true)]
    (by simp [processor.scanW, processor.processLine, processor.tokenLoop,
      processor.queryLoop, processor.normalize, model.getEmbedding, lookupA,
      processor.trimCtx])

theorem mulF_zero_right (rnd : ℚ → F) (h : rnd 0 = F.fin 0) (x : F) :
    mulF rnd x (F.fin 0) = F.fin 0 ∨ mulF rnd x (F.fin 0) = F.nan := by
  cases x with
  | nan => right; rfl
  | inf s => right; simp [mulF]
  | fin q => left; simp [mulF, h]

theorem addF_zero_nan (rnd : ℚ → F) (h : rnd 0 = F.fin 0) {a y : F}
    (ha : a = F.fin 0 ∨ a = F.nan) (hy : y = F.fin 0 ∨ y = F.nan) :
    addF rnd a y = F.fin 0 ∨ addF rnd a y = F.nan := by
  rcases ha with ha | ha <;> rcases hy with hy | hy <;> subst ha <;> subst hy <;>
    simp [addF, h]

theorem simAccum_zero (ops : FloatOps) (h32 : ops.rnd32 0 = F.fin 0)
    (h64 : ops.rnd64 0 = F.fin 0) :
    ∀ (ps : List (F × F)), (∀ p ∈ ps, p.2 = F.fin 0) →
    ∀ (a b c : F), (a = F.fin 0 ∨ a = F.nan) → c = F.fin 0 →
      ((ps.foldl
        (fun acc p =>
          (addF ops.rnd64 acc.1 (mulF ops.rnd32 p.1 p.2),
           addF ops.rnd64 acc.2.1 (mulF ops.rnd32 p.1 p.1),
           addF ops.rnd64 acc.2.2 (mulF ops.rnd32 p.2 p.2))) (a, b, c)).1 = F.fin 0 ∨
       (ps.foldl
        (fun acc p =>
          (addF ops.rnd64 acc.1 (mulF ops.rnd32 p.1 p.2),
           addF ops.rnd64 acc.2.1 (mulF ops.rnd32 p.1 p.1),
           addF ops.rnd64 acc.2.2 (mulF ops.rnd32 p.2 p.2))) (a, b, c)).1 = F.nan) ∧
      (ps.foldl
        (fun acc p =>
          (addF ops.rnd64 acc.1 (mulF ops.rnd32 p.1 p.2),
           addF ops.rnd64 acc.2.1 (mulF ops.rnd32 p.1 p.1),
           addF ops.rnd64 acc.2.2 (mulF ops.rnd32 p.2 p.2))) (a, b, c)).2.2 = F.fin 0 := by
  intro ps
  induction ps with
  | nil =>
      intro _ a b c ha hc
      exact ⟨ha, hc⟩
  | cons p rest ih =>
      intro hz a b c ha hc
      have hp2 : p.2 = F.fin 0 := hz p (List.mem_cons_self p rest)
      have hz2 : ∀ x ∈ rest, x.2 = F.fin 0 := fun x hx => hz x (List.mem_cons_of_mem p hx)
      simp only [List.foldl_cons]
      refine ih hz2 _ _ _ ?_ ?_
      · rw [hp2]
        exact addF_zero_nan ops.rnd64 h64 ha (mulF_zero_right ops.rnd32 h32 p.1)
      · rw [hp2, hc]
        have hm : mulF ops.rnd32 (F.fin 0) (F.fin 0) = F.fin 0 := by simp [mulF, h32]
        rw [hm]
        simp [addF, h64]

/-- Cosine of any vector against the all-zero vector is NaN: the dot product
and the second norm are exactly zero, so the final division is 0/0 (or has a
NaN operand). -/
theorem calculateSimilarity_zero (ops : FloatOps) (hops : ops.Faithful)
    (v : List F) (n : ℕ) :
    similarity.calculateSimilarity ops v (List.replicate n (F.fin 0)) = F.nan := by
  obtain ⟨h32, h64, hsq⟩ := hops
  have hz : ∀ p ∈ v.zip (List.replicate n (F.fin 0)), p.2 = F.fin 0 := by
    intro p hp
    exact List.eq_of_mem_replicate (List.of_mem_zip hp).2
  have hacc := simAccum_zero ops h32 h64 (v.zip (List.replicate n (F.fin 0))) hz
    (F.fin 0) (F.fin 0) (F.fin 0) (Or.inl rfl) rfl
  simp only [similarity.calculateSimilarity, similarity.simAccum]
  obtain ⟨hd, hn2⟩ := hacc
  rw [hn2, hsq]
  have hdenom := mulF_zero_right ops.rnd64 h64
    (ops.sqrtF ((v.zip (List.replicate n (F.fin 0))).foldl
      (fun acc p =>
        (addF ops.rnd64 acc.1 (mulF ops.rnd32 p.1 p.2),
         addF ops.rnd64 acc.2.1 (mulF ops.rnd32 p.1 p.1),
         addF ops.rnd64 acc.2.2 (mulF ops.rnd32 p.2 p.2))) (F.fin 0, F.fin 0, F.fin 0)).2.1)
  rcases hd with hd | hd <;> rw [hd] <;> rcases hdenom with he | he <;> rw [he] <;>
    simp [divF]

theorem lookupA_mem {α : Type} :
    ∀ (c : List (String × α)) (k : String) (v : α),
      lookupA c k = some v → (k, v) ∈ c := by
  intro c
  induction c with
  | nil => intro k v h; exact Option.noConfusion h
  | cons p rest ih =>
      intro k v h
      obtain ⟨k1, v1⟩ := p
      simp only [lookupA] at h
      by_cases hk : k1 = k
      · rw [if_pos hk] at h
        rw [List.mem_cons]
        left
        rw [← hk]
        exact congrArg (Prod.mk k1) (Option.some.inj h).symm
      · rw [if_neg hk] at h
        exact List.mem_cons_of_mem _ (ih k v h)

theorem key_cancel {q t u : String} (h : q ++ "|" ++ t = q ++ "|" ++ u) : t = u := by
  have hd := congrArg String.data h
  simp only [String.data_append] at hd
  exact String.ext (List.append_cancel_left hd)

/-- Under the cache invariant, the legacy memoized lookup driven by the
model's vectors returns exactly the similarity of the query vector and the
token's vector, and preserves the invariant. -/
theorem memoizedSC_ok (ops : FloatOps) (m : model.Word2VecModel) (q : String)
    (sc : similarity.SimilarityCache) (t : String)
    (hOK : cacheOK ops m q sc.cache) :
    (sc.memoizedCalculateSimilarity ops q t (model.getVectorEmbedding q m)
      (model.getVectorEmbedding t m)).1 =
      similarity.calculateSimilarity ops (model.getVectorEmbedding q m)
        (model.getVectorEmbedding t m) ∧
    cacheOK ops m q ((sc.memoizedCalculateSimilarity ops q t
      (model.getVectorEmbedding q m) (model.getVectorEmbedding t m)).2.1).cache := by
  simp only [similarity.SimilarityCache.memoizedCalculateSimilarity]
  by_cases hlen : 30 < (q ++ "|" ++ t).utf8ByteSize
  · simp only [hlen, if_true]
    exact ⟨trivial, hOK⟩
  · simp only [hlen, if_false]
    cases hl : lookupA sc.cache (q ++ "|" ++ t) with
    | some v =>
        obtain ⟨t2, hkey, hval⟩ := hOK (q ++ "|" ++ t, v) (lookupA_mem sc.cache _ v hl)
        have ht2 : t2 = t := (key_cancel hkey.symm)
        rw [ht2] at hval
        exact ⟨hval, hOK⟩
    | none =>
        constructor
        · rfl
        · intro p hp
          rcases List.mem_cons.mp hp with hp1 | hp1
          · refine ⟨t, ?_, ?_⟩
            · rw [hp1]
            · rw [hp1]
          · exact hOK p hp1

/-- Within one line of the legacy scan, the cache invariant is preserved and
any reported match names a token that is present in the model. -/
theorem legacyTokenScan_ok (ops : FloatOps) (hops : ops.Faithful)
    (m : model.Word2VecModel) (q : String) (θ : F) (ic : Bool) :
    ∀ (tokens : List String) (sc : similarity.SimilarityCache),
      cacheOK ops m q sc.cache →
      (∀ tok s,
        (processor.legacyTokenScan ops m q (model.getVectorEmbedding q m) θ ic
          tokens sc).1 = some (tok, s) → lookupA m.vectors tok ≠ none) ∧
      cacheOK ops m q
        ((processor.legacyTokenScan ops m q (model.getVectorEmbedding q m) θ ic
          tokens sc).2).cache := by
  intro tokens
  induction tokens with
  | nil =>
      intro sc hOK
      exact ⟨fun tok s h => Option.noConfusion h, hOK⟩
  | cons token rest ih =>
      intro sc hOK
      have hM := memoizedSC_ok ops m q sc (processor.normalize ic token) hOK
      simp only [processor.legacyTokenScan]
      by_cases hgt : gtF ((sc.memoizedCalculateSimilarity ops q
          (processor.normalize ic token) (model.getVectorEmbedding q m)
          (model.getVectorEmbedding (processor.normalize ic token) m)).1) θ = true
      · simp only [hgt, if_true]
        constructor
        · intro tok s hsome hnone
          simp only [Option.some.injEq, Prod.mk.injEq] at hsome
          obtain ⟨htok, hsv⟩ := hsome
          rw [← htok] at hnone
          have hzero : model.getVectorEmbedding (processor.normalize ic token) m =
              List.replicate m.size (F.fin 0) := by
            simp only [model.getVectorEmbedding, hnone]
          rw [hM.1, hzero, calculateSimilarity_zero ops hops] at hgt
          simp [gtF_nan_left] at hgt
        · exact hM.2
      · simp only [hgt, if_false]
        exact ih _ hM.2

/-- Over a whole legacy scan, every reported match names a token present in
the model. -/
theorem legacyScan_ok (ops : FloatOps) (hops : ops.Faithful)
    (m : model.Word2VecModel) (q : String) (θ : F) (ic : Bool) (ca : ℤ) :
    ∀ (lines : List (List String)) (sc : similarity.SimilarityCache),
      cacheOK ops m q sc.cache →
      ∀ e ∈ (processor.legacyScan ops m q (model.getVectorEmbedding q m) θ ic ca
        lines sc).1, lookupA m.vectors e.1 ≠ none := by
  intro lines sc
  induction lines, sc using processor.legacyScan.induct ops m q
      (model.getVectorEmbedding q m) θ ic ca with
  | case1 sc =>
      intro _ e he
      simp [processor.legacyScan] at he
  | case2 tokens rest sc sc1 hts ih =>
      intro hOK e he
      have hline := legacyTokenScan_ok ops hops m q θ ic tokens sc hOK
      simp only [processor.legacyScan, hts] at he
      have hOK1 : cacheOK ops m q sc1.cache := by
        have := hline.2
        rw [hts] at this
        exact this
      exact ih hOK1 e he
  | case3 tokens rest sc tok s sc1 hts ih =>
      intro hOK e he
      have hline := legacyTokenScan_ok ops hops m q θ ic tokens sc hOK
      simp only [processor.legacyScan, hts, List.mem_cons] at he
      have hOK1 : cacheOK ops m q sc1.cache := by
        have := hline.2
        rw [hts] at this
        exact this
      rcases he with he | he
      · have := hline.1 tok s
        rw [hts] at this
        rw [he]
        exact this rfl
      · exact ih hOK1 e he

/-- C10: in the legacy pipeline, a token absent from the model gets the
all-zero vector of length Size from `GetVectorEmbedding` with no error;
cosine similarity against that zero vector is NaN (0/0); NaN is not strictly
greater than any threshold; and therefore no match reported by a legacy scan
(run, as in the source, from a fresh empty cache) ever names an
out-of-vocabulary token — such tokens are skipped silently. -/
theorem c10_oov_never_matches (ops : FloatOps) (hops : ops.Faithful)
    (m : model.Word2VecModel) (q : String) (θ : F) (ic : Bool) (ca : ℤ)
    (lines : List (List String)) :
    (∀ t : String, lookupA m.vectors t = none →
      model.getVectorEmbedding t m = List.replicate m.size (F.fin 0)) ∧
    (∀ (v : List F) (n : ℕ),
      similarity.calculateSimilarity ops v (List.replicate n (F.fin 0)) = F.nan) ∧
    (∀ x : F, gtF F.nan x = false) ∧
    (∀ e ∈ (processor.legacyScan ops m q (model.getVectorEmbedding q m) θ ic ca
      lines ⟨[]⟩).1, lookupA m.vectors e.1 ≠ none) := by
  refine ⟨?_, ?_, gtF_nan_left, ?_⟩
  · intro t ht
    simp [model.getVectorEmbedding, ht]
  · intro v n
    exact calculateSimilarity_zero ops hops v n
  · exact legacyScan_ok ops hops m q θ ic ca lines ⟨[]⟩
      (fun p hp => absurd hp (List.not_mem_nil p))

/-- C10 witness: over the one-word model, the out-of-vocabulary token "zzz"
gets the zero vector, scores NaN, NaN beats no threshold, and the legacy
scan of the line "zzz king" cannot report "zzz" as a match. -/
theorem c10_oov_never_matches_witness :
    model.getVectorEmbedding "zzz" kingModel = List.replicate 1 (F.fin 0) ∧
    similarity.calculateSimilarity exactOps [F.fin 1] (List.replicate 1 (F.fin 0)) =
      F.nan ∧
    gtF F.nan (F.fin 0) = false ∧
    (("zzz", F.nan) ∈ (processor.legacyScan exactOps kingModel "king"
      (model.getVectorEmbedding "king" kingModel) (F.fin 0) false 0
      [["zzz", "king"]] ⟨[]⟩).1 → False) := by
  have h := c10_oov_never_matches exactOps exactOps_faithful kingModel "king" (F.fin 0)
    false 0 [["zzz", "king"]]
  refine ⟨?_, h.2.1 [F.fin 1] 1, h.2.2.1 (F.fin 0), ?_⟩
  · exact h.1 "zzz" rfl
  · intro hmem
    exact h.2.2.2 ("zzz", F.nan) hmem rfl
